import Mathlib

/-!
Verification development for the github-subfinder tool
(`src/github-subfinder.py`).  Python strings are modelled as lists of
Unicode codepoints (`PyStr := List Nat`); the string operations the
script uses (`strip`, `lower`, `split`, `join`) are embedded over that
representation, regular expressions are embedded as a Brzozowski
derivative matcher, and the token pool, the response classifiers and
the control flow of `main` are translated definition by definition.
-/

/-- Python strings, modelled as lists of Unicode codepoints. -/
abbrev PyStr := List Nat

/-- Build a `PyStr` from a Lean string literal (codepoints of its chars). -/
def pyStr (s : String) : PyStr := s.data.map Char.toNat

/-- ASCII lowercasing of one codepoint, as Python `str.lower` acts on
`A`-`Z` (the script only handles ASCII domains and tokens). -/
def lowerCharN (c : Nat) : Nat :=
  if 65 ≤ c ∧ c ≤ 90 then c + 32 else c

/-- Python `str.lower()` on the ASCII range. -/
def pyLower (s : PyStr) : PyStr := s.map lowerCharN

/-- Whitespace codepoints stripped by Python `str.strip()` (ASCII part). -/
def isWsN (c : Nat) : Bool := c == 32 || c == 9 || c == 10 || c == 11 || c == 12 || c == 13

/-- Python `str.strip()` (ASCII whitespace, both ends). -/
def stripWsBoth (s : PyStr) : PyStr :=
  ((s.dropWhile isWsN).reverse.dropWhile isWsN).reverse

/-- Strip every occurrence of codepoint `ch` from the left end,
as in Python `str.strip(ch)`'s left half. -/
def lstripCh (ch : Nat) (s : PyStr) : PyStr := s.dropWhile (· == ch)

/-- Strip every occurrence of codepoint `ch` from the right end. -/
def rstripCh (ch : Nat) (s : PyStr) : PyStr :=
  (s.reverse.dropWhile (· == ch)).reverse

/-- Python `str.strip(ch)` for a single-character strip set. -/
def stripCh (ch : Nat) (s : PyStr) : PyStr := rstripCh ch (lstripCh ch s)

/-- Python `str.split(sep)` for a one-character separator `sep`
(keeps empty pieces; `"".split(sep) = [""]`). -/
def splitCh (sep : Nat) : PyStr → List PyStr
  | [] => [[]]
  | c :: cs =>
    if c = sep then [] :: splitCh sep cs
    else
      match splitCh sep cs with
      | [] => [[c]]
      | l :: ls => (c :: l) :: ls

/-- Python `sep.join(pieces)` for a one-character separator. -/
def joinCh (sep : Nat) : List PyStr → PyStr
  | [] => []
  | [x] => x
  | x :: y :: ys => x ++ sep :: joinCh sep (y :: ys)

/-- The normalization applied by `split_domain` (src line 108):
`user_domain.strip().lower().strip(".")`. -/
def hostOf (user_domain : PyStr) : PyStr :=
  stripCh 46 (pyLower (stripWsBoth user_domain))

/-- Translation of `split_domain` (src lines 107-115): normalize, split on
dots; with fewer than two labels return `("", host, "")`, otherwise
`(labels[:-2] joined, labels[-2], labels[-1])`. -/
def split_domain (user_domain : PyStr) : PyStr × PyStr × PyStr :=
  let host := hostOf user_domain
  let labels := splitCh 46 host
  if labels.length < 2 then ([], host, [])
  else
    (joinCh 46 (labels.take (labels.length - 2)),
     labels.getD (labels.length - 2) [],
     labels.getD (labels.length - 1) [])

/-- Regular expressions over codepoints, with character classes given by
decidable predicates; the shapes used by `build_patterns`. -/
inductive RE where
  | emp : RE
  | eps : RE
  | cls (p : Nat → Bool) : RE
  | cat (a b : RE) : RE
  | alt (a b : RE) : RE
  | star (a : RE) : RE

/-- Whether a regex accepts the empty string. -/
def RE.nullable : RE → Bool
  | .emp => false
  | .eps => true
  | .cls _ => false
  | .cat a b => a.nullable && b.nullable
  | .alt a b => a.nullable || b.nullable
  | .star _ => true

/-- Syntactic emptiness check (true only for regexes whose language is
empty), used to keep derivatives small. -/
def RE.isEmp : RE → Bool
  | .emp => true
  | .cat a b => a.isEmp || b.isEmp
  | .alt a b => a.isEmp && b.isEmp
  | _ => false

/-- Alternation, pruning syntactically empty branches. -/
def RE.altS (a b : RE) : RE :=
  if a.isEmp then b else if b.isEmp then a else .alt a b

/-- Concatenation, collapsing to the empty language when a side is
syntactically empty. -/
def RE.catS (a b : RE) : RE :=
  if a.isEmp || b.isEmp then .emp else .cat a b

/-- Brzozowski derivative of a regex by one codepoint. -/
def RE.deriv : RE → Nat → RE
  | .emp, _ => .emp
  | .eps, _ => .emp
  | .cls p, c => if p c then .eps else .emp
  | .cat a b, c =>
    if a.nullable then RE.altS (RE.catS (a.deriv c) b) (b.deriv c)
    else RE.catS (a.deriv c) b
  | .alt a b, c => RE.altS (a.deriv c) (b.deriv c)
  | .star a, c => RE.catS (a.deriv c) (.star a)

/-- Whole-string regex match (the string is in the regex's language). -/
def reMatch (r : RE) (s : PyStr) : Bool :=
  (s.foldl RE.deriv r).nullable

/-- Some (possibly empty) leading piece of `s` matches `r`. -/
def reHitsAt (r : RE) : PyStr → Bool
  | [] => r.nullable
  | c :: cs => r.nullable || reHitsAt (r.deriv c) cs

/-- Python `re.search` semantics: some contiguous piece of `s`, starting
anywhere, matches `r`. -/
def reSearch (r : RE) : PyStr → Bool
  | [] => reHitsAt r []
  | c :: cs => reHitsAt r (c :: cs) || reSearch r cs

/-- One pattern character under the `(?i)` flag: the input codepoint,
lowercased, must equal the (lowercase) pattern codepoint. -/
def reChar (c : Nat) : RE := .cls (fun x => lowerCharN x == c)

/-- A literal string under the `(?i)` flag (`re.escape` makes every
character of the escaped text literal). -/
def reLit (s : PyStr) : RE := s.foldr (fun c r => .cat (reChar c) r) .eps

/-- `r?` -/
def reOpt (r : RE) : RE := .alt .eps r

/-- `r+` -/
def rePlus (r : RE) : RE := .cat r (.star r)

/-- At most `n` further copies of `r`. -/
def reUpTo (r : RE) : Nat → RE
  | 0 => .eps
  | n + 1 => .alt .eps (.cat r (reUpTo r n))

/-- `r{1,n}` -/
def reRep1To (r : RE) (n : Nat) : RE := .cat r (reUpTo r (n - 1))

/-- Is `c` an ASCII digit. -/
def isDigitN (c : Nat) : Bool := decide (48 ≤ c) && decide (c ≤ 57)

/-- Is `c` an ASCII lowercase letter. -/
def isLowerAlphaN (c : Nat) : Bool := decide (97 ≤ c) && decide (c ≤ 122)

/-- The class `[0-9a-z\-\.]` under `(?i)`. -/
def hostCharCI (c : Nat) : Bool :=
  let d := lowerCharN c
  isDigitN d || isLowerAlphaN d || d == 45 || d == 46

/-- The class `[0-9a-z\-]` under `(?i)`. -/
def hostCharNoDotCI (c : Nat) : Bool :=
  let d := lowerCharN c
  isDigitN d || isLowerAlphaN d || d == 45

/-- The class `[a-z]` under `(?i)`. -/
def alphaCI (c : Nat) : Bool := isLowerAlphaN (lowerCharN c)

/-- Translation of `build_patterns` (src lines 117-131): from the split
domain build the search keyword and the compiled scanning regex.
Extended mode: keyword is the registrable label and the pattern is
`(?i)[0-9a-z\-\.]+\.([0-9a-z\-]+)?REG([0-9a-z\-\.]+)?\.[a-z]{1,5}`.
Standard mode: keyword is the normalized domain and the pattern is
`(?i)(([0-9a-z\-\.]+)\.)?CORE` with `CORE` the escaped literal domain. -/
def build_patterns (user_domain : PyStr) (extended : Bool) : PyStr × RE :=
  let parts := split_domain user_domain
  let sub := parts.1
  let registrable := parts.2.1
  let tld := parts.2.2
  if extended then
    (registrable,
     .cat (rePlus (.cls hostCharCI))
       (.cat (reChar 46)
         (.cat (reOpt (rePlus (.cls hostCharNoDotCI)))
           (.cat (reLit registrable)
             (.cat (reOpt (rePlus (.cls hostCharCI)))
               (.cat (reChar 46) (reRep1To (.cls alphaCI) 5)))))))
  else
    let searchK :=
      if sub ≠ [] then sub ++ 46 :: registrable ++ 46 :: tld
      else registrable ++ 46 :: tld
    let core :=
      if sub ≠ [] then
        .cat (reLit sub)
          (.cat (reChar 46) (.cat (reLit registrable) (.cat (reChar 46) (reLit tld))))
      else RE.cat (reLit registrable) (.cat (reChar 46) (reLit tld))
    (searchK, .cat (reOpt (.cat (rePlus (.cls hostCharCI)) (reChar 46))) core)

/-- Outcomes of one search or fetch HTTP exchange, as the script's error
dictionaries distinguish them: `ok`, `rateLimited` (tag `"ratelimit"`),
`transientHttp s` (tag `"http_<s>"`), `transientBody` (tag `"json"`),
`network` (tag `"network"`). -/
inductive Outcome where
  | ok : Outcome
  | rateLimited : Outcome
  | transientHttp (status : Nat) : Outcome
  | transientBody : Outcome
  | network : Outcome
deriving DecidableEq

/-- Translation of `github_search`'s response classification (src lines
157-182).  `status` is `none` on a network failure (`gh_request` returned
`None`); `remaining` is the `X-RateLimit-Remaining` header if present;
`parseOk` abstracts whether `json.loads` succeeded on the body. -/
def classifySearch (status : Option Nat) (remaining : Option PyStr) (parseOk : Bool) : Outcome :=
  match status with
  | none => .network
  | some s =>
    if s = 403 ∨ remaining = some [48] then .rateLimited
    else if s ≠ 200 then .transientHttp s
    else if parseOk then .ok else .transientBody

/-- Translation of `fetch_code`'s response classification (src lines
187-200); the body decode (`errors="ignore"`) cannot fail, so there is no
parse case. -/
def classifyFetch (status : Option Nat) (remaining : Option PyStr) : Outcome :=
  match status with
  | none => .network
  | some s =>
    if 500 ≤ s then .network
    else if s = 403 ∨ remaining = some [48] then .rateLimited
    else if s ≠ 200 then .transientHttp s
    else .ok

/-- Is `c` an ASCII hex digit `[0-9a-f]`. -/
def isHexN (c : Nat) : Bool := isDigitN c || (decide (97 ≤ c) && decide (c ≤ 102))

/-- Is `c` in `[A-Za-z0-9]`. -/
def isAlnumN (c : Nat) : Bool :=
  isDigitN c || isLowerAlphaN c || (decide (65 ≤ c) && decide (c ≤ 90))

/-- Is `c` in `[_A-Za-z0-9]`. -/
def isPatCharN (c : Nat) : Bool := isAlnumN c || c == 95

/-- Exactly `n` leading characters of `l` exist and satisfy `p`. -/
def fixedRun (p : Nat → Bool) (n : Nat) (l : PyStr) : Bool :=
  decide ((l.take n).length = n) && (l.take n).all p

/-- One of `TOKEN_RE`'s three alternatives matches at the start of `l`
(src line 43): 40 hex digits, `ghp_` plus 36 `[A-Za-z0-9]`, or
`github_pat_` plus 82 `[_A-Za-z0-9]`. -/
def tokenShapeAt (l : PyStr) : Bool :=
  fixedRun isHexN 40 l
  || (List.isPrefixOf (pyStr "ghp_") l && fixedRun isAlnumN 36 (l.drop 4))
  || (List.isPrefixOf (pyStr "github_pat_") l && fixedRun isPatCharN 82 (l.drop 11))

/-- `TOKEN_RE.search(l)`: the token shape occurs somewhere inside `l`. -/
def tokenSearch : PyStr → Bool
  | [] => tokenShapeAt []
  | c :: cs => tokenShapeAt (c :: cs) || tokenSearch cs

/-- Translation of the `-t` token parsing (src line 235):
`[t.strip() for t in args.tokens.split(",") if TOKEN_RE.search(t.strip())]`. -/
def parseTokensArg (s : PyStr) : List PyStr :=
  ((splitCh 44 s).map stripWsBoth).filter tokenSearch

/-- Translation of the `GITHUB_TOKEN` environment fallback (src lines
237-239): strip it, keep it as a singleton when nonempty and matching. -/
def envTokens (env : PyStr) : List PyStr :=
  let e := stripWsBoth env
  if e ≠ [] ∧ tokenSearch e = true then [e] else []

/-- Translation of `read_tokens_from_file` (src lines 57-66): per line,
strip, and append when nonempty, matching and not already present. -/
def read_tokens_from_file (lines : List PyStr) : List PyStr :=
  lines.foldl
    (fun toks line =>
      let t := stripWsBoth line
      if t ≠ [] ∧ tokenSearch t = true ∧ t ∉ toks then toks ++ [t] else toks)
    []

/-- One entry of the token pool: the token and its cooldown deadline
(times are naturals, in tenths of a second). -/
structure TokenEntry where
  value : PyStr
  disabled_til : Nat
deriving DecidableEq

/-- Translation of `TokenPool`'s state (src lines 68-74): the entry list
and the rotation cursor.  (The constructor's `random.shuffle` is a
permutation of the entry list; theorems quantify over every order.) -/
structure TokenPool where
  tokens : List TokenEntry
  idx : Nat
deriving DecidableEq

/-- Translation of `TokenPool._available_indices` (src lines 76-78). -/
def TokenPool.availableIndices (p : TokenPool) (now : Nat) : List Nat :=
  (List.range p.tokens.length).filter
    (fun i => decide ((p.tokens.getD i ⟨[], 0⟩).disabled_til ≤ now))

/-- Translation of `TokenPool.get` (src lines 80-92): with no available
entry return the exhaustion sentinel; otherwise reset the cursor to the
first available index if it left the available set, return that entry's
value, and advance the cursor to the next available index (wrapping). -/
def TokenPool.get (p : TokenPool) (now : Nat) : Option PyStr × TokenPool :=
  let avail := p.availableIndices now
  if avail = [] then (none, p)
  else
    let i := if p.idx ∈ avail then p.idx else avail.headD 0
    let t := (p.tokens.getD i ⟨[], 0⟩).value
    let nxt := avail.indexOf i + 1
    let nxt := if avail.length ≤ nxt then 0 else nxt
    (some t, { p with idx := avail.getD nxt 0 })

/-- Mark the first entry of the list whose value is `tok` as disabled
until `til` (the `for`/`break` loop of src lines 97-100). -/
def disableFirst : List TokenEntry → PyStr → Nat → List TokenEntry
  | [], _, _ => []
  | t :: ts, tok, til =>
    if t.value = tok then { t with disabled_til := til } :: ts
    else t :: disableFirst ts tok til

/-- Translation of `TokenPool.disable` (src lines 94-100): set the first
entry holding `tok` to be disabled until `now + cooldown`. -/
def TokenPool.disable (p : TokenPool) (tok : PyStr) (now cooldown : Nat) : TokenPool :=
  { p with tokens := disableFirst p.tokens tok (now + cooldown) }

/-- The outputs of `n` successive `get` calls on the pool, threading the
updated cursor state. -/
def getSeq (p : TokenPool) (now : Nat) : Nat → List (Option PyStr)
  | 0 => []
  | n + 1 =>
    let r := p.get now
    r.1 :: getSeq r.2 now n

/-- The normalization applied to every regex match before insertion
(src line 307): `m.group(0).lower().strip(".")`. -/
def normalizeDomain (s : PyStr) : PyStr := stripCh 46 (pyLower s)

/-- Translation of the found-set insertion (src lines 307-310): normalize
the match and append it when nonempty and new. -/
def insertFound (found : List PyStr) (m : PyStr) : List PyStr :=
  let dom := normalizeDomain m
  if dom ≠ [] ∧ dom ∉ found then found ++ [dom] else found

/-- The found set produced by a stream of raw regex matches. -/
def foundFrom (ms : List PyStr) : List PyStr := ms.foldl insertFound []

/-- What one search-plus-fetch round for a (query, page) pair produced,
abstracting the network: the search was rate limited, failed otherwise,
returned no items, or returned items whose fetched bodies yielded the
given list of raw regex matches (the fan-out of src lines 289-310). -/
inductive PageOutcome where
  | ratelimit : PageOutcome
  | searchFail : PageOutcome
  | okNoItems : PageOutcome
  | okItems (ms : List PyStr) : PageOutcome
deriving DecidableEq

/-- The log lines of `main`'s loop that matter to the control flow. -/
inductive LEvent where
  | noTokenExit : LEvent
  | noTokenWait : LEvent
  | rateLimitHit : LEvent
  | searchError : LEvent
  | noItems : LEvent
deriving DecidableEq

/-- The mutable state of `main`'s loop: the pool, the clock (tenths of a
second, advanced by the `time.sleep` calls), the found set and the log. -/
structure RunState where
  pool : TokenPool
  now : Nat
  found : List PyStr
  events : List LEvent
deriving DecidableEq

/-- Translation of the per-query `while page <= SEARCH_MAX_PAGES` loop of
`main` (src lines 259-313), with the network abstracted by `env` (what
the search-plus-fetch round at a given query, page and time produces).
Returning means what Python's `break` or loop exit means there: control
falls through to the next query of the `for` loop.  `fuel` bounds the
rate-limit and no-token retries of the same page, which Python leaves
unbounded. -/
def pageLoop (env : Nat → Nat → Nat → PageOutcome) (qIdx : Nat) (stopFlag : Bool) :
    Nat → Nat → RunState → RunState
  | 0, _, st => st
  | fuel + 1, page, st =>
    if 10 < page then st
    else
      match st.pool.get st.now with
      | (none, p1) =>
        if stopFlag then { st with pool := p1, events := st.events ++ [.noTokenExit] }
        else
          pageLoop env qIdx stopFlag fuel page
            { st with pool := p1, now := st.now + 30, events := st.events ++ [.noTokenWait] }
      | (some tok, p1) =>
        match env qIdx page st.now with
        | .ratelimit =>
          pageLoop env qIdx stopFlag fuel page
            { st with pool := p1.disable tok st.now 610, now := st.now + 10,
                      events := st.events ++ [.rateLimitHit] }
        | .searchFail =>
          { st with pool := p1, now := st.now + 5, events := st.events ++ [.searchError] }
        | .okNoItems => { st with pool := p1, events := st.events ++ [.noItems] }
        | .okItems ms =>
          pageLoop env qIdx stopFlag fuel (page + 1)
            { st with pool := p1, now := st.now + 2, found := ms.foldl insertFound st.found }

/-- Translation of `main`'s outer `for q in searches` loop (src line 258):
every query index is processed in order, each running its page loop from
page 1; afterwards `main` unconditionally writes the sorted found set and
exits 0.  There is no early exit from this fold. -/
def runQueries (env : Nat → Nat → Nat → PageOutcome) (stopFlag : Bool)
    (numQueries fuel : Nat) (st : RunState) : RunState :=
  (List.range numQueries).foldl (fun s q => pageLoop env q stopFlag fuel 1 s) st

/-- The rejoining of a `(subdomain, registrable, tld)` triple with dots,
omitting an empty subdomain, as the round-trip property words it. -/
def rejoinSplit (parts : PyStr × PyStr × PyStr) : PyStr :=
  if parts.1 = [] then parts.2.1 ++ 46 :: parts.2.2
  else parts.1 ++ 46 :: parts.2.1 ++ 46 :: parts.2.2

/-- C1: the claim says that with the stop-on-exhaustion flag set, an
exhausted pool terminates the whole run.  In the code the `break` at src
line 265 only leaves the current query's page loop: this run with two
queries and a fully disabled pool logs the "no available token, exiting"
event once per query — the second query is still evaluated after the
first "exit" — and the run flows through to its normal completion
(writing the output file and exiting 0). -/
theorem c1_exhausted_pool_run :
    runQueries (fun _ _ _ => PageOutcome.okNoItems) true 2 5
      { pool := { tokens := [{ value := pyStr "tokenA", disabled_til := 1000000 }], idx := 0 },
        now := 0, found := [], events := [] }
    = { pool := { tokens := [{ value := pyStr "tokenA", disabled_til := 1000000 }], idx := 0 },
        now := 0, found := [], events := [LEvent.noTokenExit, LEvent.noTokenExit] } := by
  decide

/-- C3 counterexample: for the one-label domain `"localhost"`,
`split_domain` does not return an empty registrable name with the TLD
slot holding the domain; it returns the domain in the registrable slot
and an empty TLD. -/
theorem c3_counterexample :
    ¬ ((split_domain (pyStr "localhost")).1 = [] ∧
       (split_domain (pyStr "localhost")).2.1 = [] ∧
       (split_domain (pyStr "localhost")).2.2 = pyStr "localhost") := by
  decide

/-- C3 amended: for every domain whose normalized host has fewer than two
dot-separated labels, `split_domain` returns an empty subdomain, the
normalized host in the registrable slot, and an empty TLD. -/
theorem c3_degenerate_split (D : PyStr)
    (h : (splitCh 46 (hostOf D)).length < 2) :
    split_domain D = ([], hostOf D, []) := by
  unfold split_domain
  simp [h]

/-- Witness for `c3_degenerate_split` at the concrete input `"localhost"`. -/
theorem c3_degenerate_split_witness :
    (splitCh 46 (hostOf (pyStr "localhost"))).length < 2 ∧
    split_domain (pyStr "localhost") = ([], hostOf (pyStr "localhost"), []) :=
  ⟨by decide, c3_degenerate_split (pyStr "localhost") (by decide)⟩

/-- C4 counterexample: `"Example.com"` has two labels, yet rejoining the
components of `split_domain "Example.com"` gives `"example.com"`, not the
original string — the split lowercases (and strips) before splitting. -/
theorem c4_counterexample :
    2 ≤ (splitCh 46 (hostOf (pyStr "Example.com"))).length ∧
    rejoinSplit (split_domain (pyStr "Example.com")) ≠ pyStr "Example.com" := by
  decide

/-- C5 counterexample: the extended-mode pattern for `"example.com"` does
not match `"example-foo.net"` — neither as the whole string nor anywhere
inside it — because the pattern `[0-9a-z\-\.]+\.(...)?example...` demands
at least one host label and a literal dot before the registrable name. -/
theorem c5_counterexample :
    reMatch (build_patterns (pyStr "example.com") true).2 (pyStr "example-foo.net") = false ∧
    reSearch (build_patterns (pyStr "example.com") true).2 (pyStr "example-foo.net") = false := by
  decide

/-- C5 amended: the extended-mode pattern for `"example.com"` rejects the
bare `"example-foo.net"` but accepts it once a preceding dotted label is
present, as in `"a.example-foo.net"` — the loose containment of the
registrable name holds only for hosts with at least one subdomain label,
followed by a 1-5 character trailing label. -/
theorem c5_extended_pattern :
    reMatch (build_patterns (pyStr "example.com") true).2 (pyStr "example-foo.net") = false ∧
    reMatch (build_patterns (pyStr "example.com") true).2 (pyStr "a.example-foo.net") = true := by
  decide

/-- C6: the standard-mode pattern for `"example.com"` matches
`"example.com"` itself and `"foo.example.com"`, and does not match the
string `"notexample.com"` (as a whole-string match, i.e. language
membership of the compiled pattern). -/
theorem c6_standard_pattern :
    reMatch (build_patterns (pyStr "example.com") false).2 (pyStr "example.com") = true ∧
    reMatch (build_patterns (pyStr "example.com") false).2 (pyStr "foo.example.com") = true ∧
    reMatch (build_patterns (pyStr "example.com") false).2 (pyStr "notexample.com") = false := by
  decide

/-- C2: the response classification of `github_search`, in priority
order — no response classifies as network error; HTTP 403 or an
`X-RateLimit-Remaining` header equal to `"0"` as rate limited; any other
non-200 status as a transient error carrying the status; a 200 body that
parses as rate-limit-free JSON as ok and a parse failure as a transient
(malformed-body) error — and `fetch_code` classifies identically except
that every HTTP 5xx status is folded into the network-error outcome. -/
theorem c2_response_classification :
    (∀ remaining parseOk, classifySearch none remaining parseOk = Outcome.network) ∧
    (∀ s remaining parseOk, (s = 403 ∨ remaining = some (pyStr "0")) →
      classifySearch (some s) remaining parseOk = Outcome.rateLimited) ∧
    (∀ s remaining parseOk, s ≠ 403 → remaining ≠ some (pyStr "0") → s ≠ 200 →
      classifySearch (some s) remaining parseOk = Outcome.transientHttp s) ∧
    (∀ remaining, remaining ≠ some (pyStr "0") →
      classifySearch (some 200) remaining true = Outcome.ok) ∧
    (∀ remaining, remaining ≠ some (pyStr "0") →
      classifySearch (some 200) remaining false = Outcome.transientBody) ∧
    (∀ remaining, classifyFetch none remaining = Outcome.network) ∧
    (∀ s remaining, 500 ≤ s → s ≤ 599 → classifyFetch (some s) remaining = Outcome.network) ∧
    (∀ s remaining, s < 500 →
      classifyFetch (some s) remaining = classifySearch (some s) remaining true) := by
  have h0 : pyStr "0" = [48] := by decide
  refine ⟨fun _ _ => rfl, ?_, ?_, ?_, ?_, fun _ => rfl, ?_, ?_⟩
  · intro s rem p h
    rw [h0] at h
    simp [classifySearch, h]
  · intro s rem p h1 h2 h3
    rw [h0] at h2
    simp [classifySearch, h1, h2, h3]
  · intro rem h
    rw [h0] at h
    simp [classifySearch, h]
  · intro rem h
    rw [h0] at h
    simp [classifySearch, h]
  · intro s rem h1 h2
    simp [classifyFetch, h1]
  · intro s rem h
    have h5 : ¬ (500 ≤ s) := by omega
    simp [classifyFetch, classifySearch, h5]

/-- Witness for `c2_response_classification` at concrete statuses: 403 is
rate limited, 500 on search is a transient error, 503 on fetch is a
network error, and 404 classifies alike for fetch and search. -/
theorem c2_response_classification_witness :
    classifySearch (some 403) none true = Outcome.rateLimited ∧
    classifySearch (some 500) none true = Outcome.transientHttp 500 ∧
    classifyFetch (some 503) none = Outcome.network ∧
    classifyFetch (some 404) none = classifySearch (some 404) none true :=
  ⟨c2_response_classification.2.1 403 none true (Or.inl rfl),
   c2_response_classification.2.2.1 500 none true (by decide) (by decide) (by decide),
   c2_response_classification.2.2.2.2.2.2.1 503 none (by decide) (by decide),
   c2_response_classification.2.2.2.2.2.2.2 404 none (by decide)⟩

/-- C10: `split_domain` normalizes before splitting (lowercase, strip
surrounding whitespace, strip leading/trailing dots, src line 108), so
the split and the derived search keyword and regex coincide for any two
inputs with the same normalized host — in particular for inputs that
differ only in case, surrounding whitespace, or leading/trailing dots. -/
theorem c10_split_normalizes (d1 d2 : PyStr) (e : Bool)
    (h : hostOf d1 = hostOf d2) :
    split_domain d1 = split_domain d2 ∧ build_patterns d1 e = build_patterns d2 e := by
  have hs : split_domain d1 = split_domain d2 := by
    unfold split_domain
    rw [h]
  refine ⟨hs, ?_⟩
  unfold build_patterns
  rw [hs]

/-- Witness for `c10_split_normalizes` at the spec's example:
`split(" Example.COM. ") = split("example.com")`. -/
theorem c10_split_normalizes_witness :
    hostOf (pyStr " Example.COM. ") = hostOf (pyStr "example.com") ∧
    split_domain (pyStr " Example.COM. ") = split_domain (pyStr "example.com") :=
  ⟨by decide, (c10_split_normalizes (pyStr " Example.COM. ") (pyStr "example.com") false (by decide)).1⟩

/-- Every element placed in the accumulator by the file-reading fold
passed the token check and was new, so validity and dedup are preserved. -/
theorem readTokensAux (lines : List PyStr) :
    ∀ (acc : List PyStr), (∀ t ∈ acc, tokenSearch t = true) → acc.Nodup →
    (∀ t ∈ lines.foldl (fun toks line =>
        let t := stripWsBoth line
        if t ≠ [] ∧ tokenSearch t = true ∧ t ∉ toks then toks ++ [t] else toks) acc,
      tokenSearch t = true) ∧
    (lines.foldl (fun toks line =>
        let t := stripWsBoth line
        if t ≠ [] ∧ tokenSearch t = true ∧ t ∉ toks then toks ++ [t] else toks) acc).Nodup := by
  induction lines with
  | nil => intro acc hv hn; exact ⟨hv, hn⟩
  | cons l ls ih =>
    intro acc hv hn
    simp only [List.foldl_cons]
    by_cases hc : stripWsBoth l ≠ [] ∧ tokenSearch (stripWsBoth l) = true ∧ stripWsBoth l ∉ acc
    · rw [if_pos hc]
      refine ih (acc ++ [stripWsBoth l]) ?_ ?_
      · intro t ht
        rcases List.mem_append.mp ht with h | h
        · exact hv t h
        · rcases List.mem_singleton.mp h with rfl
          exact hc.2.1
      · refine List.Nodup.append hn (List.nodup_singleton _) ?_
        intro x hx hx2
        rcases List.mem_singleton.mp hx2 with rfl
        exact hc.2.2 hx
    · rw [if_neg hc]
      exact ih acc hv hn

/-- C7 counterexample: the explicit comma-separated credential source does
not deduplicate — passing the same valid 40-hex token twice via `-t`
yields a token list with a duplicate. -/
theorem c7_counterexample :
    ¬ (parseTokensArg (pyStr "aaaaaaaaaaaaaaaaaaaaaaaaaaaaaaaaaaaaaaaa,aaaaaaaaaaaaaaaaaaaaaaaaaaaaaaaaaaaaaaaa")).Nodup := by
  decide

/-- C7 amended: every credential source (explicit list, environment
variable, file) yields only strings whose stripped form contains the
fixed token shape (`TOKEN_RE.search`, i.e. containment rather than an
exact-shape match); the file source and the environment source are
duplicate-free, but the explicit comma-separated list keeps duplicates. -/
theorem c7_sources_validated :
    (∀ s t, t ∈ parseTokensArg s → tokenSearch t = true) ∧
    (∀ e t, t ∈ envTokens e → tokenSearch t = true) ∧
    (∀ e, (envTokens e).Nodup) ∧
    (∀ lines t, t ∈ read_tokens_from_file lines → tokenSearch t = true) ∧
    (∀ lines, (read_tokens_from_file lines).Nodup) := by
  refine ⟨?_, ?_, ?_, ?_, ?_⟩
  · intro s t h
    exact (List.mem_filter.mp h).2
  · intro e t h
    simp only [envTokens] at h
    split at h
    · rcases List.mem_singleton.mp h with rfl
      exact (by assumption : stripWsBoth e ≠ [] ∧ tokenSearch (stripWsBoth e) = true).2
    · exact absurd h (List.not_mem_nil _)
  · intro e
    simp only [envTokens]
    split
    · exact List.nodup_singleton _
    · exact List.nodup_nil
  · intro lines t h
    exact (readTokensAux lines [] (by intro t ht; exact absurd ht (List.not_mem_nil _)) List.nodup_nil).1 t h
  · intro lines
    exact (readTokensAux lines [] (by intro t ht; exact absurd ht (List.not_mem_nil _)) List.nodup_nil).2

/-- Witness for `c7_sources_validated`: a stripped 40-hex token passed via
`-t` is accepted, and it does satisfy the token search. -/
theorem c7_sources_validated_witness :
    pyStr "aaaaaaaaaaaaaaaaaaaaaaaaaaaaaaaaaaaaaaaa" ∈
      parseTokensArg (pyStr " aaaaaaaaaaaaaaaaaaaaaaaaaaaaaaaaaaaaaaaa ") ∧
    tokenSearch (pyStr "aaaaaaaaaaaaaaaaaaaaaaaaaaaaaaaaaaaaaaaa") = true :=
  ⟨by decide,
   c7_sources_validated.1 (pyStr " aaaaaaaaaaaaaaaaaaaaaaaaaaaaaaaaaaaaaaaa ")
     (pyStr "aaaaaaaaaaaaaaaaaaaaaaaaaaaaaaaaaaaaaaaa") (by decide)⟩

/-- ASCII lowercasing is idempotent on codepoints. -/
theorem lowerCharN_idem (c : Nat) : lowerCharN (lowerCharN c) = lowerCharN c := by
  by_cases h : 65 ≤ c ∧ c ≤ 90
  · have h1 : lowerCharN c = c + 32 := by rw [lowerCharN, if_pos h]
    rw [h1, lowerCharN, if_neg (by omega)]
  · have h1 : lowerCharN c = c := by rw [lowerCharN, if_neg h]
    rw [h1]
    exact h1

/-- A map whose function fixes every member of the list fixes the list. -/
theorem mapFixed {f : Nat → Nat} : ∀ (l : List Nat), (∀ c ∈ l, f c = c) → l.map f = l := by
  intro l h
  induction l with
  | nil => rfl
  | cons c cs ih =>
    rw [List.map_cons, h c (List.mem_cons_self c cs),
        ih (fun x hx => h x (List.mem_cons_of_mem c hx))]

/-- The head surviving a `dropWhile` fails the predicate. -/
theorem dropWhileHeadFalse {p : Nat → Bool} : ∀ (l : List Nat) (c : Nat) (cs : List Nat),
    l.dropWhile p = c :: cs → p c = false := by
  intro l
  induction l with
  | nil => intro c cs h; simp [List.dropWhile] at h
  | cons a as ih =>
    intro c cs h
    rw [List.dropWhile_cons] at h
    split at h
    · exact ih c cs h
    · rename_i hpa
      injection h with h1 h2
      subst h1
      simpa using hpa

/-- Stripping a codepoint from both ends never adds characters. -/
theorem mem_of_mem_stripCh {c ch : Nat} {l : PyStr} (h : c ∈ stripCh ch l) : c ∈ l := by
  unfold stripCh rstripCh lstripCh at h
  rw [List.mem_reverse] at h
  have h2 := (List.dropWhile_sublist _).subset h
  rw [List.mem_reverse] at h2
  exact (List.dropWhile_sublist _).subset h2

/-- A both-ends strip of `ch` never ends with `ch`. -/
theorem stripCh_no_trailing (ch : Nat) (l : PyStr) : ∀ b, stripCh ch l ≠ b ++ [ch] := by
  intro b h
  unfold stripCh rstripCh at h
  have h2 : (lstripCh ch l).reverse.dropWhile (· == ch) = ch :: b.reverse := by
    have h3 := congrArg List.reverse h
    simpa using h3
  have h4 := dropWhileHeadFalse _ _ _ h2
  simp at h4

/-- `dropWhile` is idempotent. -/
theorem dropWhileIdem (p : Nat → Bool) (l : List Nat) :
    (l.dropWhile p).dropWhile p = l.dropWhile p := by
  cases h : l.dropWhile p with
  | nil => simp
  | cons c cs =>
    have hc := dropWhileHeadFalse l c cs h
    simp [List.dropWhile_cons, hc]

/-- The right-strip is idempotent. -/
theorem rstripIdem (ch : Nat) (l : PyStr) : rstripCh ch (rstripCh ch l) = rstripCh ch l := by
  unfold rstripCh
  rw [List.reverse_reverse, dropWhileIdem]

/-- The right-strip returns a leading piece of its input. -/
theorem rstripPre (ch : Nat) (l : PyStr) : rstripCh ch l <+: l := by
  have h : l.reverse.dropWhile (· == ch) <:+ l.reverse := List.dropWhile_suffix _
  have h2 : (rstripCh ch l).reverse <:+ l.reverse := by
    unfold rstripCh
    rw [List.reverse_reverse]
    exact h
  exact (List.reverse_suffix).mp h2

/-- A both-ends strip is already left-stripped. -/
theorem lstripOfStrip (ch : Nat) (l : PyStr) : lstripCh ch (stripCh ch l) = stripCh ch l := by
  cases h : stripCh ch l with
  | nil => rfl
  | cons c cs =>
    have hpre : rstripCh ch (lstripCh ch l) <+: lstripCh ch l := rstripPre ch _
    rw [show rstripCh ch (lstripCh ch l) = stripCh ch l from rfl, h] at hpre
    rcases hpre with ⟨t, ht⟩
    have hc : (c == ch) = false := by
      apply dropWhileHeadFalse l c (cs ++ t)
      rw [show l.dropWhile (· == ch) = lstripCh ch l from rfl, ← ht, List.cons_append]
    simp [lstripCh, List.dropWhile_cons, hc]

/-- A both-ends strip is idempotent. -/
theorem stripChIdem (ch : Nat) (l : PyStr) : stripCh ch (stripCh ch l) = stripCh ch l := by
  conv_lhs => rw [stripCh]
  rw [lstripOfStrip]
  rw [show stripCh ch l = rstripCh ch (lstripCh ch l) from rfl, rstripIdem]

/-- Normalized domains are already lowercase. -/
theorem normalizeDomain_lower_fixed (m : PyStr) :
    pyLower (normalizeDomain m) = normalizeDomain m := by
  apply mapFixed
  intro c hc
  have h1 : c ∈ pyLower m := mem_of_mem_stripCh hc
  rcases List.mem_map.mp h1 with ⟨d, _, rfl⟩
  exact lowerCharN_idem d

/-- The match normalization is idempotent. -/
theorem normalizeDomainIdem (m : PyStr) :
    normalizeDomain (normalizeDomain m) = normalizeDomain m := by
  show stripCh 46 (pyLower (normalizeDomain m)) = normalizeDomain m
  rw [normalizeDomain_lower_fixed]
  show stripCh 46 (stripCh 46 (pyLower m)) = _
  rw [stripChIdem]
  rfl

/-- Every member of the found set is the normalization of some match. -/
theorem foundFromShapeAux : ∀ (ms acc : List PyStr),
    (∀ x ∈ acc, ∃ m, x = normalizeDomain m) →
    ∀ x ∈ ms.foldl insertFound acc, ∃ m, x = normalizeDomain m := by
  intro ms
  induction ms with
  | nil => intro acc h x hx; exact h x hx
  | cons m rest ih =>
    intro acc h x hx
    rw [List.foldl_cons] at hx
    refine ih (insertFound acc m) ?_ x hx
    intro y hy
    simp only [insertFound] at hy
    split at hy
    · rcases List.mem_append.mp hy with h2 | h2
      · exact h y h2
      · exact ⟨m, List.mem_singleton.mp h2⟩
    · exact h y hy

/-- C9: the found-domain set never holds two entries that differ only by
letter case or by a trailing dot — every inserted match is normalized
first (src line 307) and the normalization is idempotent, so any two
members related by case folding or a trailing dot are equal. -/
theorem c9_normalized_set :
    (∀ s, normalizeDomain (normalizeDomain s) = normalizeDomain s) ∧
    (∀ ms a b, a ∈ foundFrom ms → b ∈ foundFrom ms →
      (pyLower a = pyLower b ∨ a = b ++ [46] ∨ b = a ++ [46]) → a = b) := by
  refine ⟨normalizeDomainIdem, ?_⟩
  intro ms a b ha hb hd
  obtain ⟨ma, rfl⟩ :=
    foundFromShapeAux ms [] (by intro x hx; exact absurd hx (List.not_mem_nil _)) a ha
  obtain ⟨mb, rfl⟩ :=
    foundFromShapeAux ms [] (by intro x hx; exact absurd hx (List.not_mem_nil _)) b hb
  rcases hd with h | h | h
  · calc normalizeDomain ma = pyLower (normalizeDomain ma) := (normalizeDomain_lower_fixed ma).symm
      _ = pyLower (normalizeDomain mb) := h
      _ = normalizeDomain mb := normalizeDomain_lower_fixed mb
  · exact absurd h (stripCh_no_trailing 46 (pyLower ma) _)
  · exact absurd h (stripCh_no_trailing 46 (pyLower mb) _)

/-- Witness for `c9_normalized_set`: the match `"Foo.COM."` is stored as
`"foo.com"`, and two equal-after-lowercasing members coincide. -/
theorem c9_normalized_set_witness :
    pyStr "foo.com" ∈ foundFrom [pyStr "Foo.COM."] ∧
    pyStr "foo.com" = pyStr "foo.com" :=
  ⟨by decide,
   c9_normalized_set.2 [pyStr "Foo.COM."] (pyStr "foo.com") (pyStr "foo.com")
     (by decide) (by decide) (Or.inl rfl)⟩

/-- Splitting always yields at least one piece. -/
theorem splitCh_ne_nil (sep : Nat) : ∀ (s : PyStr), splitCh sep s ≠ [] := by
  intro s
  cases s with
  | nil => simp [splitCh]
  | cons c cs =>
    rw [splitCh]
    by_cases hc : c = sep
    · simp [hc]
    · rw [if_neg hc]
      cases h : splitCh sep cs <;> simp

/-- The split of any string has a head piece. -/
theorem splitCh_cons_shape (sep : Nat) (cs : PyStr) :
    ∃ l ls, splitCh sep cs = l :: ls := by
  cases h : splitCh sep cs with
  | nil => exact absurd h (splitCh_ne_nil sep cs)
  | cons l ls => exact ⟨l, ls, rfl⟩

/-- Joining the pieces of a split restores the string. -/
theorem joinCh_splitCh (sep : Nat) : ∀ (s : PyStr), joinCh sep (splitCh sep s) = s := by
  intro s
  induction s with
  | nil => rfl
  | cons c cs ih =>
    rw [splitCh]
    by_cases hc : c = sep
    · rw [if_pos hc]
      obtain ⟨l, ls, h⟩ := splitCh_cons_shape sep cs
      rw [h, joinCh, List.nil_append, ← h, ih, hc]
    · rw [if_neg hc]
      obtain ⟨l, ls, h⟩ := splitCh_cons_shape sep cs
      rw [h]
      rw [h] at ih
      cases ls with
      | nil =>
        simp only [joinCh] at ih ⊢
        rw [ih]
      | cons l2 ls2 =>
        simp only [joinCh] at ih ⊢
        rw [List.cons_append, ih]

/-- Joining distributes over appending nonempty piece lists. -/
theorem joinCh_append (sep : Nat) : ∀ (A B : List PyStr), A ≠ [] → B ≠ [] →
    joinCh sep (A ++ B) = joinCh sep A ++ sep :: joinCh sep B := by
  intro A
  induction A with
  | nil => intro B h hB; exact absurd rfl h
  | cons x A2 ih =>
    intro B _ hB
    cases A2 with
    | nil =>
      cases B with
      | nil => exact absurd rfl hB
      | cons b bs =>
        simp only [List.cons_append, List.nil_append, joinCh]
    | cons y A3 =>
      have h2 := ih B (by simp) hB
      simp only [List.cons_append] at h2 ⊢
      simp only [joinCh, h2, List.append_assoc, List.cons_append]

/-- A string not starting with the separator contributes its head
character to the first piece of the split. -/
theorem splitCh_head_cons (sep c : Nat) (cs : PyStr) (hc : ¬ c = sep) :
    ∃ l ls, splitCh sep (c :: cs) = (c :: l) :: ls := by
  rw [splitCh, if_neg hc]
  obtain ⟨l, ls, h⟩ := splitCh_cons_shape sep cs
  rw [h]
  exact ⟨l, ls, rfl⟩

/-- The two trailing pieces of `F ++ [r, t]` read back by index. -/
theorem getD_append_two (r t : PyStr) : ∀ (F : List PyStr),
    ((F ++ [r, t]).getD F.length [] = r) ∧ ((F ++ [r, t]).getD (F.length + 1) [] = t) := by
  intro F
  induction F with
  | nil => exact ⟨rfl, rfl⟩
  | cons x F2 ih => simpa using ih

/-- Taking the front of `F ++ [r, t]` gives back `F`. -/
theorem take_append_len (r t : PyStr) : ∀ (F : List PyStr), (F ++ [r, t]).take F.length = F := by
  intro F
  induction F with
  | nil => rfl
  | cons x F2 ih => simp [ih]

/-- C4 amended: for every already-normalized domain (a fixed point of the
strip/lower/strip-dots normalization) with at least two labels, rejoining
the `split_domain` components with dots — omitting an empty subdomain —
reconstructs the domain exactly. -/
theorem c4_roundtrip_normalized (D : PyStr) (hnorm : hostOf D = D)
    (hlab : 2 ≤ (splitCh 46 (hostOf D)).length) :
    rejoinSplit (split_domain D) = D := by
  rw [hnorm] at hlab
  obtain ⟨L1, t, hL1⟩ : ∃ L1 t, splitCh 46 D = L1 ++ [t] := by
    rcases List.eq_nil_or_concat (splitCh 46 D) with h | ⟨L1, t, h⟩
    · exact absurd h (splitCh_ne_nil 46 D)
    · rw [List.concat_eq_append] at h
      exact ⟨L1, t, h⟩
  obtain ⟨F, r, hF⟩ : ∃ F r, L1 = F ++ [r] := by
    rcases List.eq_nil_or_concat L1 with h | ⟨F, r, h⟩
    · exfalso
      rw [h, List.nil_append] at hL1
      rw [hL1] at hlab
      simp at hlab
    · rw [List.concat_eq_append] at h
      exact ⟨F, r, h⟩
  have hL : splitCh 46 D = F ++ [r, t] := by
    rw [hL1, hF]
    simp
  have hlen : (splitCh 46 D).length = F.length + 2 := by
    rw [hL]
    simp
  have hsd : split_domain D = (joinCh 46 F, r, t) := by
    simp only [split_domain, hnorm]
    rw [if_neg (by omega)]
    rw [hlen, hL]
    have e1 : F.length + 2 - 2 = F.length := by omega
    have e2 : F.length + 2 - 1 = F.length + 1 := by omega
    rw [e1, e2, take_append_len, (getD_append_two r t F).1, (getD_append_two r t F).2]
  rw [hsd]
  have hD : D = joinCh 46 (F ++ [r, t]) := by rw [← hL, joinCh_splitCh]
  cases F with
  | nil =>
    rw [hD]
    simp [rejoinSplit, joinCh]
  | cons f F2 =>
    have hDne : D ≠ [] := by
      intro h
      rw [h] at hlab
      simp [splitCh] at hlab
    obtain ⟨d, D2, hDd⟩ : ∃ d D2, D = d :: D2 := by
      cases D with
      | nil => exact absurd rfl hDne
      | cons d D2 => exact ⟨d, D2, rfl⟩
    have hlfix : lstripCh 46 D = D := by
      conv_lhs => rw [← hnorm]
      rw [show hostOf D = stripCh 46 (pyLower (stripWsBoth D)) from rfl]
      rw [lstripOfStrip, ← show hostOf D = stripCh 46 (pyLower (stripWsBoth D)) from rfl, hnorm]
    have hd46 : ¬ d = 46 := by
      have hdw : D.dropWhile (· == 46) = d :: D2 := by
        rw [show D.dropWhile (fun x => x == 46) = lstripCh 46 D from rfl, hlfix, hDd]
      have h5 := dropWhileHeadFalse D d D2 hdw
      simpa using h5
    have hfne : f ≠ [] := by
      obtain ⟨l, ls, hsp⟩ := splitCh_head_cons 46 d D2 hd46
      rw [← hDd] at hsp
      rw [hsp] at hL
      have h6 : d :: l = f := ((List.cons.injEq _ _ _ _).mp hL).1
      rw [← h6]
      simp
    have hsubne : joinCh 46 (f :: F2) ≠ [] := by
      cases F2 with
      | nil => simpa [joinCh] using hfne
      | cons y ys =>
        simp only [joinCh]
        intro hcontra
        rcases List.append_eq_nil.mp hcontra with ⟨h1, h2⟩
        exact hfne h1
    simp only [rejoinSplit]
    rw [if_neg hsubne]
    rw [hD, joinCh_append 46 (f :: F2) [r, t] (by simp) (by simp)]
    simp [joinCh]

/-- Witness for `c4_roundtrip_normalized` at `"example.com"`. -/
theorem c4_roundtrip_normalized_witness :
    hostOf (pyStr "example.com") = pyStr "example.com" ∧
    2 ≤ (splitCh 46 (hostOf (pyStr "example.com"))).length ∧
    rejoinSplit (split_domain (pyStr "example.com")) = pyStr "example.com" :=
  ⟨by decide, by decide,
   c4_roundtrip_normalized (pyStr "example.com") (by decide) (by decide)⟩

/-- With every entry available, the available-index list is the full
index range. -/
theorem availAll (p : TokenPool) (now : Nat)
    (h : ∀ t ∈ p.tokens, t.disabled_til ≤ now) :
    p.availableIndices now = List.range p.tokens.length := by
  unfold TokenPool.availableIndices
  apply List.filter_eq_self.mpr
  intro i hi
  rw [List.mem_range] at hi
  apply decide_eq_true
  apply h
  rw [List.getD_eq_getElem _ _ (by simpa using hi)]
  exact List.getElem_mem _

/-- The position of `i` inside `range n` is `i`. -/
theorem indexOf_range (i n : Nat) (h : i < n) : (List.range n).indexOf i = i := by
  induction n with
  | zero => omega
  | succ m ih =>
    rw [List.range_succ]
    by_cases hm : i < m
    · rw [List.indexOf_append_of_mem (by simpa using hm)]
      exact ih hm
    · have he : i = m := by omega
      subst he
      rw [List.indexOf_append_of_not_mem (by simp), List.length_range, List.indexOf_cons_self]
      omega

/-- Reading `range n` at a valid position gives the position. -/
theorem getD_range (n i : Nat) (h : i < n) : (List.range n).getD i 0 = i := by
  rw [List.getD_eq_getElem _ _ (by simpa using h)]
  simp

/-- One `get` on a fully available pool returns the entry under the
cursor and advances the cursor by one, wrapping. -/
theorem get_all_avail (p : TokenPool) (now : Nat)
    (hall : ∀ t ∈ p.tokens, t.disabled_til ≤ now) (hidx : p.idx < p.tokens.length) :
    p.get now = (some ((p.tokens.getD p.idx ⟨[], 0⟩).value),
                 { p with idx := (p.idx + 1) % p.tokens.length }) := by
  have hav := availAll p now hall
  have hn0 : 0 < p.tokens.length := by omega
  have hne : ¬ (List.range p.tokens.length = []) := by
    simp only [List.range_eq_nil]
    omega
  have hmem : p.idx ∈ List.range p.tokens.length := by simpa using hidx
  simp only [TokenPool.get, hav]
  rw [if_neg hne, if_pos hmem, indexOf_range p.idx p.tokens.length hidx, List.length_range]
  by_cases hc : p.tokens.length ≤ p.idx + 1
  · rw [if_pos hc]
    rw [getD_range _ 0 hn0]
    have hm : (p.idx + 1) % p.tokens.length = 0 := by
      have he : p.idx + 1 = p.tokens.length := by omega
      rw [he, Nat.mod_self]
    rw [hm]
  · rw [if_neg hc]
    rw [getD_range _ (p.idx + 1) (by omega)]
    have hm : (p.idx + 1) % p.tokens.length = p.idx + 1 := Nat.mod_eq_of_lt (by omega)
    rw [hm]

/-- On a fully available pool, `k` successive `get` calls return the
entries at cursor, cursor+1, ... modulo the pool size. -/
theorem getSeq_all_avail (now : Nat) : ∀ (k : Nat) (p : TokenPool),
    (∀ t ∈ p.tokens, t.disabled_til ≤ now) → p.idx < p.tokens.length →
    getSeq p now k = (List.range k).map
      (fun j => some ((p.tokens.getD ((p.idx + j) % p.tokens.length) ⟨[], 0⟩).value)) := by
  intro k
  induction k with
  | zero => intro p _ _; rfl
  | succ m ih =>
    intro p hall hidx
    have hn0 : 0 < p.tokens.length := by omega
    have hstep := get_all_avail p now hall hidx
    rw [getSeq, hstep]
    have ih2 := ih { p with idx := (p.idx + 1) % p.tokens.length }
      (by simpa using hall) (by simpa using Nat.mod_lt (p.idx + 1) hn0)
    simp only at ih2
    rw [ih2]
    rw [List.range_succ_eq_map, List.map_cons, List.map_map]
    congr 1
    · have hz : (p.idx + 0) % p.tokens.length = p.idx := by
        rw [Nat.add_zero, Nat.mod_eq_of_lt hidx]
      rw [hz]
    · apply List.map_congr_left
      intro j _
      simp only [Function.comp]
      have he1 : p.idx + 1 + j = p.idx + (j + 1) := by omega
      rw [Nat.mod_add_mod, he1]

/-- A front segment of `range N` is a range. -/
theorem range_take (n N : Nat) (h : n ≤ N) : (List.range N).take n = List.range n := by
  apply List.ext_getElem
  · simp [Nat.min_eq_left h]
  · intro i h1 h2
    simp

/-- C8: on a pool whose credentials are all available and stay available,
any run of `N ≥ P` successive `get` calls starting from any in-range
cursor returns every credential within the first `P` calls, with no
credential repeated there — each credential is seen once before any is
seen a second time. -/
theorem c8_round_robin (p : TokenPool) (now N : Nat)
    (hall : ∀ t ∈ p.tokens, t.disabled_til ≤ now)
    (hnodup : (p.tokens.map (fun t => t.value)).Nodup)
    (hidx : p.idx < p.tokens.length)
    (hN : p.tokens.length ≤ N) :
    (∀ t ∈ p.tokens, (some t.value) ∈ (getSeq p now N).take p.tokens.length) ∧
    ((getSeq p now N).take p.tokens.length).Nodup := by
  have hn0 : 0 < p.tokens.length := by omega
  have hseq := getSeq_all_avail now N p hall hidx
  have htake : (getSeq p now N).take p.tokens.length
      = (List.range p.tokens.length).map
        (fun j => some ((p.tokens.getD ((p.idx + j) % p.tokens.length) ⟨[], 0⟩).value)) := by
    rw [hseq, ← List.map_take, range_take _ _ hN]
  rw [htake]
  constructor
  · intro t ht
    obtain ⟨i, hi, hgi⟩ := List.mem_iff_getElem.mp ht
    refine List.mem_map.mpr ⟨(p.tokens.length + i - p.idx) % p.tokens.length, ?_, ?_⟩
    · exact List.mem_range.mpr (Nat.mod_lt _ hn0)
    · have he : (p.idx + (p.tokens.length + i - p.idx) % p.tokens.length) % p.tokens.length = i := by
        rw [Nat.add_mod_mod]
        have he2 : p.idx + (p.tokens.length + i - p.idx) = p.tokens.length + i := by omega
        rw [he2, Nat.add_mod_left, Nat.mod_eq_of_lt hi]
      rw [he]
      rw [List.getD_eq_getElem _ _ hi, hgi]
  · apply List.Nodup.map_on ?_ (List.nodup_range _)
    intro j1 hj1 j2 hj2 hf
    rw [List.mem_range] at hj1 hj2
    have ha : (p.idx + j1) % p.tokens.length < p.tokens.length := Nat.mod_lt _ hn0
    have hb : (p.idx + j2) % p.tokens.length < p.tokens.length := Nat.mod_lt _ hn0
    have hv : (p.tokens.getD ((p.idx + j1) % p.tokens.length) ⟨[], 0⟩).value
        = (p.tokens.getD ((p.idx + j2) % p.tokens.length) ⟨[], 0⟩).value := by
      simpa using hf
    rw [List.getD_eq_getElem _ _ ha, List.getD_eq_getElem _ _ hb] at hv
    have hla : (p.idx + j1) % p.tokens.length < (p.tokens.map (fun t => t.value)).length := by
      simpa using ha
    have hlb : (p.idx + j2) % p.tokens.length < (p.tokens.map (fun t => t.value)).length := by
      simpa using hb
    have hmv : (p.tokens.map (fun t => t.value))[(p.idx + j1) % p.tokens.length]
        = (p.tokens.map (fun t => t.value))[(p.idx + j2) % p.tokens.length] := by
      simp only [List.getElem_map]
      exact hv
    have hidxeq := (hnodup.getElem_inj_iff).mp hmv
    have hme : Nat.ModEq p.tokens.length (p.idx + j1) (p.idx + j2) := hidxeq
    have hje := Nat.ModEq.add_left_cancel' p.idx hme
    have hj12 : j1 % p.tokens.length = j2 % p.tokens.length := hje
    rwa [Nat.mod_eq_of_lt hj1, Nat.mod_eq_of_lt hj2] at hj12

/-- Witness for `c8_round_robin`: a two-token pool visits both tokens in
the first two of three calls, with no repeat among them. -/
theorem c8_round_robin_witness :
    (some [97] ∈
      (getSeq { tokens := [{ value := [97], disabled_til := 0 },
                           { value := [98], disabled_til := 0 }], idx := 0 } 0 3).take 2) ∧
    ((getSeq { tokens := [{ value := [97], disabled_til := 0 },
                          { value := [98], disabled_til := 0 }], idx := 0 } 0 3).take 2).Nodup := by
  have h := c8_round_robin
    { tokens := [{ value := [97], disabled_til := 0 },
                 { value := [98], disabled_til := 0 }], idx := 0 } 0 3
    (by decide) (by decide) (by decide) (by decide)
  exact ⟨h.1 { value := [97], disabled_til := 0 } (by decide), h.2⟩
